import Mathlib

set_option maxRecDepth 4000

deriving instance DecidableEq for Except

/-!
Shallow embedding of `generate.py` (character-level Markov chain text
generator) and verification of its specification claims.

Modelling conventions:
* Python strings are `List Char`; a file's contents is the `List Char`
  passed to the functions (file I/O itself is out of scope).
* Python floats are idealised as `ℚ` (the only float operations used are
  division of integer counts and sums of those quotients, together with
  JSON round-trips, which in CPython preserve float values exactly).
* Raised exceptions are modelled with `Except`: `BuildError.stopIteration`
  stands for `StopIteration` escaping `next`, `BuildError.typeError` for the
  `TypeError` raised by concatenating `None` to a string, and
  `GenError.keyError` for an unhandled `KeyError` on a dict lookup.
* `random` (the Mersenne-Twister global PRNG) is an external collaborator;
  it is modelled by a deterministic stand-in: `seedState` maps a seed to a
  generator state and `lcg`/`randFrac` produce the stream of `random()`
  draws. The model is faithful in what the claims need: a fixed integer
  seed fully determines the stream, and `random.seed(None)` (seed absent)
  depends on ambient entropy, modelled by the extra parameter `g0`.
* Python dicts are insertion-ordered association lists with unique keys,
  matching CPython's guaranteed dict ordering.
-/

/-! ## Character filter (`next_character`) -/

/-- Consecutive ASCII characters from code `a` to code `b`. -/
def asciiRange (a b : Nat) : List Char :=
  (List.range (b + 1 - a)).map (fun i => Char.ofNat (a + i))

/-- Python's `string.printable`: digits, lowercase, uppercase, punctuation,
then the whitespace characters space, tab, newline, CR, VT, FF. -/
def pythonPrintable : List Char :=
  asciiRange 48 57 ++ asciiRange 97 122 ++ asciiRange 65 90 ++
  asciiRange 33 47 ++ asciiRange 58 64 ++ asciiRange 91 96 ++
  asciiRange 123 126 ++
  [' ', '\t', '\n', Char.ofNat 13, Char.ofNat 11, Char.ofNat 12]

/-- `string.printable[string.printable.index(" ") + 1 :]` from
`next_character`: everything after the space in `string.printable`. -/
def nonPrintable : List Char :=
  pythonPrintable.drop (pythonPrintable.indexOf ' ' + 1)

/-- `char.lower()` restricted to ASCII, which is all the filter's
classification distinguishes. -/
def pyLower (c : Char) : Char := c.toLower

/-- The loop body of `next_character`, threading `first_char` and
`last_char`. Returns the list of yielded characters of the loop together
with the final value of `first_char` (which the generator yields last). -/
def filterAux (ic : Bool) : List Char → Option Char → Option Char →
    List Char × Option Char
  | [], fc, _ => ([], fc)
  | c :: rest, fc, lc =>
    if c ∉ nonPrintable then
      let c2 := if ic then c else pyLower c
      let fc2 := if fc = none then some c2 else fc
      let out := filterAux ic rest fc2 (some c2)
      (c2 :: out.1, out.2)
    else if c = '\n' ∧ lc ≠ some '\n' then
      let fc2 := if fc = none then some '\n' else fc
      let out := filterAux ic rest fc2 (some '\n')
      (' ' :: out.1, out.2)
    else
      filterAux ic rest fc lc

/-- The characters yielded by `next_character` before the final
`yield first_char`. -/
def filterBody (text : List Char) (ic : Bool) : List Char :=
  (filterAux ic text none none).1

/-- The value of `first_char` at the end of `next_character`'s loop:
the final extra yield (`None` when nothing was ever yielded). -/
def firstChar (text : List Char) (ic : Bool) : Option Char :=
  (filterAux ic text none none).2

/-- The complete stream of values yielded by `next_character`: the filtered
body followed by the sentinel `first_char`, which may be `None`. -/
def filterStream (text : List Char) (ic : Bool) : List (Option Char) :=
  (filterBody text ic).map some ++ [firstChar text ic]

/-! ## Automaton builder (`create_automaton`) -/

/-- Exceptions that can escape `create_automaton`. -/
inductive BuildError where
  | stopIteration
  | typeError
deriving DecidableEq, Repr

/-- Raw count table: insertion-ordered dict from context to an
insertion-ordered dict from successor character to its count. -/
abbrev CountTable := List (List Char × List (Char × Nat))

/-- Normalized automaton: insertion-ordered dict from context to the pair
of the successor list and the parallel probability list. -/
abbrev Automaton := List (List Char × (List Char × List ℚ))

/-- `defaultdict(int)` increment of one successor's count: a missing
character enters at the end with count 1. -/
def bump (l : List (Char × Nat)) (c : Char) : List (Char × Nat) :=
  match l with
  | [] => [(c, 1)]
  | (d, n) :: rest => if d = c then (d, n + 1) :: rest else (d, n) :: bump rest c

/-- `automaton[curr][char] += 1` on the `defaultdict` count table: a missing
context enters at the end of the dict. -/
def incr (t : CountTable) (k : List Char) (c : Char) : CountTable :=
  match t with
  | [] => [(k, [(c, 1)])]
  | (k2, l) :: rest =>
    if k2 = k then (k2, bump l c) :: rest else (k2, l) :: incr rest k c

/-- The priming loop `for _ in range(order): curr += next(gen)`: consume
`k` items from the stream, failing with `StopIteration` when the stream is
exhausted and with `TypeError` when the `None` sentinel is concatenated. -/
def primeContext : Nat → List (Option Char) →
    Except BuildError (List Char × List (Option Char))
  | 0, l => .ok ([], l)
  | _ + 1, [] => .error .stopIteration
  | _ + 1, none :: _ => .error .typeError
  | k + 1, some c :: rest =>
    match primeContext k rest with
    | .ok (s, r) => .ok (c :: s, r)
    | .error e => .error e

/-- The counting loop `for char in gen`: reaching the `None` sentinel raises
`TypeError` at `curr[1:] + char` (the preceding dict mutation is lost with
the exception, so it is not modelled). -/
def buildLoop : List (Option Char) → List Char → CountTable →
    Except BuildError CountTable
  | [], _, t => .ok t
  | none :: _, _, _ => .error .typeError
  | some c :: rest, curr, t => buildLoop rest (curr.drop 1 ++ [c]) (incr t curr c)

/-- Total of the counts of one context's successor dict. -/
def sumCounts (l : List (Char × Nat)) : Nat := (l.map Prod.snd).sum

/-- `normalize_automaton`: per context, keep the successor keys in order and
divide each count by the context's total. -/
def normalize_automaton (t : CountTable) : Automaton :=
  t.map (fun e =>
    (e.1, (e.2.map Prod.fst, e.2.map (fun p => (p.2 : ℚ) / (sumCounts e.2 : ℚ)))))

/-- `create_automaton order filename ignore_case` (logging elided; `order`
is the Python `int` argument, so `range(order)` makes `order.toNat`
priming steps). -/
def create_automaton (order : Int) (text : List Char) (ic : Bool) :
    Except BuildError Automaton :=
  match primeContext order.toNat (filterStream text ic) with
  | .error e => .error e
  | .ok (curr, rest) =>
    match buildLoop rest curr [] with
    | .error e => .error e
    | .ok t => .ok (normalize_automaton t)

/-! ## Generator (`generate`) -/

/-- Exceptions that can escape `generate`. -/
inductive GenError where
  | stopIteration
  | keyError
  | buildError (e : BuildError)
deriving DecidableEq, Repr

/-- One step of the PRNG stand-in (linear congruential generator in place
of the Mersenne Twister; only its determinism matters to the claims). -/
def lcg (g : Nat) : Nat := (1103515245 * g + 12345) % 2147483648

/-- The `random()` draw made from generator state `g`, a rational in
`[0, 1)`. -/
def randFrac (g : Nat) : ℚ := ((g % 2147483648 : Nat) : ℚ) / 2147483648

/-- `random.seed(s)` for an integer `s`: the state is a function of the
seed alone. -/
def seedState (s : Int) : Nat := 2 * s.natAbs + (if s < 0 then 1 else 0)

/-- `itertools.accumulate(weights)` with running total `acc`. -/
def cumAux (acc : ℚ) : List ℚ → List ℚ
  | [] => []
  | p :: rest => (acc + p) :: cumAux (acc + p) rest

/-- Cumulative weights, as `random.choices` computes them. -/
def cumWeights (ps : List ℚ) : List ℚ := cumAux 0 ps

/-- `bisect.bisect(l, x, 0, hi)` for a sorted list `l`: the number of
entries `≤ x` among the first `hi`, scanning left to right. With `hi = 0`
no entry is compared. -/
def bisectRight (l : List ℚ) (x : ℚ) (hi : Nat) : Nat :=
  match l, hi with
  | _, 0 => 0
  | [], _ + 1 => 0
  | y :: ys, k + 1 => if y ≤ x then bisectRight ys x k + 1 else 0

/-- `random.choices(population, weights)[0]` given the `random()` draw `r`:
cumulative weights, total, then `bisect` over `[0, len(population) - 1]`.
The `getD` default is unreachable (the index is at most
`len(population) - 1`). -/
def chooseChar (cs : List Char) (ps : List ℚ) (r : ℚ) : Char :=
  let cum := cumWeights ps
  cs.getD (bisectRight cum (r * cum.getLastD 0) (cs.length - 1)) ' '

/-- Python dict lookup `automaton[state]`, `none` standing for `KeyError`. -/
def dictLookup (a : Automaton) (k : List Char) : Option (List Char × List ℚ) :=
  match a with
  | [] => none
  | e :: rest => if e.1 = k then some e.2 else dictLookup rest k

/-- The generation loop of `generate`: `n` characters still to produce,
PRNG state `g`, current context `st`. An absent context raises an
unhandled `KeyError`. -/
def genLoop (a : Automaton) : Nat → Nat → List Char → Except GenError (List Char)
  | 0, _, _ => .ok []
  | n + 1, g, st =>
    match dictLookup a st with
    | none => .error .keyError
    | some (cs, ps) =>
      let c := chooseChar cs ps (randFrac g)
      match genLoop a n (lcg g) (st.drop 1 ++ [c]) with
      | .error e => .error e
      | .ok s => .ok (c :: s)

/-- `generate` on the training path (`raw=True`; the JSON import path is
modelled separately by `import_automaton`, and `export` only adds a file
write that does not affect the returned string). `g0` is the ambient
PRNG/entropy state consumed only when `seed` is `None`; `length` is the
Python `int`, so the loop `while index < length` runs `length.toNat`
times; the initial state is `next(iter(automaton))`, raising
`StopIteration` on an empty automaton. -/
def generate (g0 : Nat) (length order : Int) (text : List Char)
    (seed : Option Int) (ic : Bool) : Except GenError (List Char) :=
  let g := match seed with
    | some s => seedState s
    | none => g0
  match create_automaton order text ic with
  | .error e => .error (.buildError e)
  | .ok a =>
    match a with
    | [] => .error .stopIteration
    | e :: _ => genLoop a length.toNat g e.1

/-! ## Persistence (`save_automaton` / `import_automaton`)

`save_automaton` writes `json.dumps(automaton)`; `import_automaton` returns
`json.loads` of the file. We model the Python values in flight and the JSON
documents exchanged; file I/O itself adds nothing. JSON numbers carry the
exact value (CPython's float `repr` round-trips floats exactly). -/

/-- Python values that can appear in an automaton and in `json.loads`
output. Dict keys are strings (the automaton's keys are contexts). -/
inductive PyValue where
  | str (s : List Char)
  | num (q : ℚ)
  | list (xs : List PyValue)
  | tuple (xs : List PyValue)
  | dict (kvs : List (List Char × PyValue))
  | none

/-- JSON documents. -/
inductive Json where
  | str (s : List Char)
  | num (q : ℚ)
  | arr (xs : List Json)
  | obj (kvs : List (List Char × Json))
  | null

mutual
/-- `json.dumps`: lists and tuples both become arrays. -/
def dumps : PyValue → Json
  | .str s => .str s
  | .num q => .num q
  | .list xs => .arr (dumpsList xs)
  | .tuple xs => .arr (dumpsList xs)
  | .dict kvs => .obj (dumpsKVs kvs)
  | .none => .null

def dumpsList : List PyValue → List Json
  | [] => []
  | x :: xs => dumps x :: dumpsList xs

def dumpsKVs : List (List Char × PyValue) → List (List Char × Json)
  | [] => []
  | (k, v) :: kvs => (k, dumps v) :: dumpsKVs kvs
end

mutual
/-- `json.loads`: arrays always come back as Python lists. -/
def loads : Json → PyValue
  | .str s => .str s
  | .num q => .num q
  | .arr xs => .list (loadsList xs)
  | .obj kvs => .dict (loadsKVs kvs)
  | .null => .none

def loadsList : List Json → List PyValue
  | [] => []
  | x :: xs => loads x :: loadsList xs

def loadsKVs : List (List Char × Json) → List (List Char × PyValue)
  | [] => []
  | (k, v) :: kvs => (k, loads v) :: loadsKVs kvs
end

/-- The in-memory automaton as a Python value: a dict from context strings
to a tuple of the successor list (one-character strings) and the
probability list — exactly what `normalize_automaton` builds. -/
def pyAutomaton (a : Automaton) : PyValue :=
  .dict (a.map (fun e =>
    (e.1, .tuple [.list (e.2.1.map (fun c => .str [c])),
                  .list (e.2.2.map .num)])))

/-- The same automaton as it comes back from `json.loads`: identical keys,
successors and probabilities, but with lists where the tuples were. -/
def pyLoadedAutomaton (a : Automaton) : PyValue :=
  .dict (a.map (fun e =>
    (e.1, .list [.list (e.2.1.map (fun c => .str [c])),
                 .list (e.2.2.map .num)])))

/-- `save_automaton`, up to the file write: the JSON document produced. -/
def save_automaton (a : Automaton) : Json := dumps (pyAutomaton a)

/-- `import_automaton`, up to the file read: the Python value produced from
a JSON document. -/
def import_automaton (j : Json) : PyValue := loads j

/-- Recover an `Automaton`'s content from a loaded Python value; `none` on
any shape mismatch. Used to state that persistence preserves keys,
successor order and probability values. -/
def decodeEntryChars : List PyValue → Option (List Char)
  | [] => some []
  | .str [c] :: xs => (decodeEntryChars xs).map (fun r => c :: r)
  | _ => Option.none

def decodeEntryNums : List PyValue → Option (List ℚ)
  | [] => some []
  | .num q :: xs => (decodeEntryNums xs).map (fun r => q :: r)
  | _ => Option.none

def decodeAutomaton : PyValue → Option Automaton
  | .dict [] => some []
  | .dict ((k, .list [.list cs, .list ps]) :: rest) =>
    match decodeEntryChars cs, decodeEntryNums ps, decodeAutomaton (.dict rest) with
    | some cs2, some ps2, some a => some ((k, (cs2, ps2)) :: a)
    | _, _, _ => Option.none
  | _ => Option.none

/-- Distinguishes the original in-memory automaton (whose per-context value
is a tuple) from its deserialized form (a list). -/
def topIsTuple : PyValue → Bool
  | .dict ((_, .tuple _) :: _) => true
  | _ => false

/-- The drop/replace rule the filter actually implements, with the only
piece of state that matters: whether the last emitted-or-collapsed event
was a newline. Tab, CR, VT and FF are always dropped; a newline is dropped
when the previous newline event is still current and otherwise becomes one
space; every other character — printable or not, ASCII or not — is passed
through (lowercased unless `ignore_case`). -/
def filterSpec (ic : Bool) : List Char → Bool → List Char
  | [], _ => []
  | c :: rest, lastNL =>
    if c = '\t' ∨ c = Char.ofNat 13 ∨ c = Char.ofNat 11 ∨ c = Char.ofNat 12 then
      filterSpec ic rest lastNL
    else if c = '\n' then
      if lastNL then filterSpec ic rest true else ' ' :: filterSpec ic rest true
    else
      (if ic then c else pyLower c) :: filterSpec ic rest false

/-- The pure content of the counting loop on a `None`-free stream. -/
def foldIncr : List Char → List Char → CountTable → CountTable
  | [], _, t => t
  | x :: xs, curr, t => foldIncr xs (curr.drop 1 ++ [x]) (incr t curr x)

/-- `k` is a context of the count table. -/
def isKeyT (t : CountTable) (k : List Char) : Prop := ∃ e ∈ t, e.1 = k

/-- `s` occurs as a successor character somewhere in the count table. -/
def isSuccT (t : CountTable) (s : Char) : Prop := ∃ e ∈ t, ∃ p ∈ e.2, p.1 = s

/-! ## Invariants of the count table -/

/-- Well-formedness of the raw count table: every context has at least one
successor and every stored count is positive. -/
def CountWF (t : CountTable) : Prop :=
  ∀ e ∈ t, e.2 ≠ [] ∧ ∀ p ∈ e.2, 0 < p.2

theorem bump_ne_nil (l : List (Char × Nat)) (c : Char) : bump l c ≠ [] := by
  match l with
  | [] => simp [bump]
  | (d, n) :: rest =>
    simp only [bump]
    split <;> simp

theorem bump_pos (l : List (Char × Nat)) (c : Char)
    (h : ∀ p ∈ l, 0 < p.2) : ∀ p ∈ bump l c, 0 < p.2 := by
  induction l with
  | nil => simp [bump]
  | cons hd tl ih =>
    obtain ⟨d, n⟩ := hd
    intro p hp
    simp only [bump] at hp
    split at hp
    · rcases List.mem_cons.1 hp with h1 | h1
      · subst h1; have := h (d, n) (by simp); omega
      · exact h p (List.mem_cons_of_mem _ h1)
    · rcases List.mem_cons.1 hp with h1 | h1
      · subst h1; exact h (d, n) (by simp)
      · exact ih (fun p hp => h p (List.mem_cons_of_mem _ hp)) p h1

theorem incr_wf (t : CountTable) (k : List Char) (c : Char)
    (h : CountWF t) : CountWF (incr t k c) := by
  induction t with
  | nil =>
    intro e he
    simp only [incr] at he
    rcases List.mem_singleton.1 he with rfl
    exact ⟨by simp, by simp⟩
  | cons hd tl ih =>
    obtain ⟨k2, l⟩ := hd
    intro e he
    simp only [incr] at he
    split at he
    · rcases List.mem_cons.1 he with rfl | h1
      · refine ⟨bump_ne_nil l c, bump_pos l c ?_⟩
        exact (h (k2, l) (by simp)).2
      · exact h e (List.mem_cons_of_mem _ h1)
    · rcases List.mem_cons.1 he with rfl | h1
      · exact h _ (by simp)
      · exact ih (fun e he => h e (List.mem_cons_of_mem _ he)) e h1

theorem buildLoop_wf (s : List (Option Char)) :
    ∀ curr t t2, buildLoop s curr t = .ok t2 → CountWF t → CountWF t2 := by
  induction s with
  | nil => intro curr t t2 h hw; simp only [buildLoop] at h; cases h; exact hw
  | cons hd tl ih =>
    intro curr t t2 h hw
    match hd with
    | none => simp [buildLoop] at h
    | some c => exact ih _ _ _ h (incr_wf t curr c hw)

theorem create_automaton_wf (order : Int) (text : List Char) (ic : Bool)
    (a : Automaton) (h : create_automaton order text ic = .ok a) :
    ∃ t, CountWF t ∧ a = normalize_automaton t := by
  unfold create_automaton at h
  split at h
  · exact absurd h (by simp)
  · rename_i curr rest _
    split at h
    · exact absurd h (by simp)
    · rename_i t ht
      refine ⟨t, buildLoop_wf rest curr [] t ht (by intro e he; simp at he), ?_⟩
      cases h; rfl

theorem sumCounts_pos (l : List (Char × Nat)) (hne : l ≠ [])
    (hpos : ∀ p ∈ l, 0 < p.2) : 0 < sumCounts l := by
  match l with
  | p :: rest =>
    have := hpos p (by simp)
    simp only [sumCounts, List.map_cons, List.sum_cons]
    omega

theorem normalized_entry_sum (l : List (Char × Nat)) (hne : l ≠ [])
    (hpos : ∀ p ∈ l, 0 < p.2) :
    (l.map (fun p => (p.2 : ℚ) / (sumCounts l : ℚ))).sum = 1 := by
  have htot : (0 : ℚ) < (sumCounts l : ℚ) := by
    exact_mod_cast sumCounts_pos l hne hpos
  have hrw : (l.map (fun p => (p.2 : ℚ) / (sumCounts l : ℚ))).sum =
      (l.map (fun p => (p.2 : ℚ))).sum / (sumCounts l : ℚ) := by
    simp only [div_eq_mul_inv]
    exact List.sum_map_mul_right l (fun p => (p.2 : ℚ)) _
  rw [hrw]
  have hcast : (l.map (fun p => (p.2 : ℚ))).sum = ((sumCounts l : ℕ) : ℚ) := by
    unfold sumCounts
    rw [Nat.cast_list_sum, List.map_map]
    rfl
  rw [hcast, div_self (ne_of_gt htot)]

/-- C1: for every automaton built by `create_automaton` (which normalizes
through `normalize_automaton`) with `order ≥ 1`, each context's successor
list and probability list have the same length, every probability is
strictly positive, and the probabilities sum to exactly 1 (hence within
any tolerance, in particular 1e-9). -/
theorem c1_distributions_normalized (order : Int) (text : List Char) (ic : Bool)
    (a : Automaton) (e : List Char × (List Char × List ℚ))
    (_horder : 1 ≤ order) (h : create_automaton order text ic = .ok a)
    (he : e ∈ a) :
    e.2.1.length = e.2.2.length ∧ (∀ p ∈ e.2.2, 0 < p) ∧ e.2.2.sum = 1 := by
  obtain ⟨t, hwf, rfl⟩ := create_automaton_wf order text ic a h
  simp only [normalize_automaton, List.mem_map] at he
  obtain ⟨e0, he0, rfl⟩ := he
  obtain ⟨hne, hpos⟩ := hwf e0 he0
  refine ⟨by simp, ?_, normalized_entry_sum e0.2 hne hpos⟩
  intro p hp
  simp only [List.mem_map] at hp
  obtain ⟨p0, hp0, rfl⟩ := hp
  have h1 : (0 : ℚ) < (p0.2 : ℚ) := by exact_mod_cast hpos p0 hp0
  have h2 : (0 : ℚ) < (sumCounts e0.2 : ℚ) := by
    exact_mod_cast sumCounts_pos e0.2 hne hpos
  exact div_pos h1 h2

/-- Witness for C1 at `create_automaton 1 "abab"` and its first context
`"a" ↦ (["b"], [2/2])`. -/
theorem c1_distributions_normalized_witness :
    ['b'].length = [((2 : ℕ) : ℚ) / ((2 : ℕ) : ℚ)].length ∧
    (0 : ℚ) < ((2 : ℕ) : ℚ) / ((2 : ℕ) : ℚ) ∧
    [((2 : ℕ) : ℚ) / ((2 : ℕ) : ℚ)].sum = 1 := by
  have h := c1_distributions_normalized 1 ['a', 'b', 'a', 'b'] false
    (normalize_automaton [(['a'], [('b', 2)]), (['b'], [('a', 2)])])
    (['a'], (['b'], [((2 : ℕ) : ℚ) / ((2 : ℕ) : ℚ)]))
    (by norm_num) rfl (by exact List.mem_cons_self _ _)
  exact ⟨h.1, h.2.1 _ (by exact List.mem_singleton_self _), h.2.2⟩

/-! ## Persistence round-trip -/

theorem loadsList_dumpsList (xs : List PyValue) :
    loadsList (dumpsList xs) = xs.map (fun v => loads (dumps v)) := by
  induction xs with
  | nil => rfl
  | cons x xs ih => simp [dumpsList, loadsList, ih]

theorem loadsKVs_dumpsKVs (kvs : List (List Char × PyValue)) :
    loadsKVs (dumpsKVs kvs) = kvs.map (fun e => (e.1, loads (dumps e.2))) := by
  induction kvs with
  | nil => rfl
  | cons e kvs ih =>
    obtain ⟨k, v⟩ := e
    simp [dumpsKVs, loadsKVs, ih]

theorem loadsDumps_strList (cs : List Char) :
    loadsList (dumpsList (cs.map (fun c => PyValue.str [c]))) =
      cs.map (fun c => PyValue.str [c]) := by
  induction cs with
  | nil => rfl
  | cons c cs ih => simp [dumpsList, loadsList, dumps, loads, ih]

theorem loadsDumps_numList (ps : List ℚ) :
    loadsList (dumpsList (ps.map PyValue.num)) = ps.map PyValue.num := by
  induction ps with
  | nil => rfl
  | cons p ps ih => simp [dumpsList, loadsList, dumps, loads, ih]

theorem decodeEntryChars_strList (cs : List Char) :
    decodeEntryChars (cs.map (fun c => PyValue.str [c])) = some cs := by
  induction cs with
  | nil => rfl
  | cons c cs ih => simp [decodeEntryChars, ih]

theorem decodeEntryNums_numList (ps : List ℚ) :
    decodeEntryNums (ps.map PyValue.num) = some ps := by
  induction ps with
  | nil => rfl
  | cons p ps ih => simp [decodeEntryNums, ih]

/-- C2 counterexample: saving and loading the automaton
`{"a": (["b"], [1.0])}` does not return a value `==`-equal to it — JSON
has no tuples, so the per-context pair comes back as a list. -/
theorem c2_roundtrip_counterexample :
    import_automaton (save_automaton [(['a'], (['b'], [1]))]) ≠
      pyAutomaton [(['a'], (['b'], [1]))] := by
  intro h
  exact absurd (congrArg topIsTuple h) (by decide)

theorem loadsKVs_pyAutomaton (a : Automaton) :
    loadsKVs (dumpsKVs (a.map (fun e =>
      (e.1, PyValue.tuple [.list (e.2.1.map (fun c => PyValue.str [c])),
                           .list (e.2.2.map .num)])))) =
    a.map (fun e =>
      (e.1, PyValue.list [.list (e.2.1.map (fun c => PyValue.str [c])),
                          .list (e.2.2.map .num)])) := by
  induction a with
  | nil => rfl
  | cons e rest ih =>
    obtain ⟨k, cs, ps⟩ := e
    simp only [List.map_cons, dumpsKVs, loadsKVs, dumps, loads, dumpsList,
      loadsList, loadsDumps_strList, loadsDumps_numList, ih]

theorem decode_pyLoadedAutomaton (a : Automaton) :
    decodeAutomaton (pyLoadedAutomaton a) = some a := by
  induction a with
  | nil => simp [pyLoadedAutomaton, decodeAutomaton]
  | cons e rest ih =>
    obtain ⟨k, cs, ps⟩ := e
    have hrest : decodeAutomaton (PyValue.dict (rest.map (fun e =>
        (e.1, PyValue.list [.list (e.2.1.map (fun c => PyValue.str [c])),
                            .list (e.2.2.map .num)])))) = some rest := ih
    simp only [pyLoadedAutomaton, List.map_cons, decodeAutomaton,
      decodeEntryChars_strList, decodeEntryNums_numList, hrest]

/-- C2 amended: loading a saved automaton reproduces identical context
keys, successor sequences (in order) and probability values — the loaded
value is exactly the original with each per-context tuple replaced by a
list, and decoding it recovers the automaton's entire content. -/
theorem c2_roundtrip_content (a : Automaton) :
    import_automaton (save_automaton a) = pyLoadedAutomaton a ∧
    decodeAutomaton (pyLoadedAutomaton a) = some a := by
  refine ⟨?_, decode_pyLoadedAutomaton a⟩
  show loads (dumps (pyAutomaton a)) = pyLoadedAutomaton a
  simp only [pyAutomaton, dumps, loads, pyLoadedAutomaton, loadsKVs_pyAutomaton]

/-! ## Determinism, length contract, unknown-context behaviour -/

/-- C3: two calls to `generate` with identical arguments — same length,
order, source text, flags and the same provided seed — return identical
results, whatever PRNG/entropy state each call starts from:
`random.seed(S)` re-seeds the generator before every walk. -/
theorem c3_generate_deterministic (g1 g2 : Nat) (L order : Int)
    (text : List Char) (s : Int) (ic : Bool) :
    generate g1 L order text (some s) ic = generate g2 L order text (some s) ic := rfl

theorem genLoop_ok_length (a : Automaton) :
    ∀ (n g : Nat) (st : List Char) (s : List Char),
      genLoop a n g st = .ok s → s.length = n := by
  intro n
  induction n with
  | zero => intro g st s h; simp only [genLoop] at h; cases h; rfl
  | succ n ih =>
    intro g st s h
    simp only [genLoop] at h
    split at h
    · exact absurd h (by simp)
    · rename_i cs ps _
      split at h
      · exact absurd h (by simp)
      · rename_i s2 h2
        cases h
        simp [ih _ _ _ h2]

/-- C4 amended: whenever `generate` completes without raising, the result
has exactly `max L 0` characters — so exactly `L` characters for every
`L ≥ 0`, and the empty string for `L = 0`. (Unqualified, the claim fails:
the walk can raise `KeyError` and return nothing, see the
counterexample.) -/
theorem c4_generate_length (g : Nat) (L order : Int) (text : List Char)
    (seed : Option Int) (ic : Bool) (s : List Char)
    (h : generate g L order text seed ic = .ok s) :
    (s.length : Int) = max L 0 := by
  simp only [generate] at h
  split at h
  · exact absurd h (by simp)
  · split at h
    · exact absurd h (by simp)
    · rw [genLoop_ok_length _ _ _ _ _ h, Int.ofNat_toNat]

/-- Witness for C4 at `generate(length=4, order=1, "abab", seed=0)`, which
returns `"baba"`. -/
theorem c4_generate_length_witness :
    ((['b', 'a', 'b', 'a'] : List Char).length : Int) = max 4 0 :=
  c4_generate_length 0 4 1 ['a', 'b', 'a', 'b'] (some 0) false
    ['b', 'a', 'b', 'a'] (by decide)

/-- C4 counterexample: at `L = 4`, order 2, training text `"aabb"`, the
generated window reaches context `"ba"`, which the automaton lacks, and
`generate` raises instead of returning a 4-character string. -/
theorem c4_generate_length_counterexample :
    generate 0 4 2 ['a', 'a', 'b', 'b'] (some 1) false = .error .keyError := by
  decide

/-- C5: on training text `"aabb"` with order 2 and length 4 the advanced
context `"ba"` has no entry in the automaton and `generate` fails with an
unhandled `KeyError` — there is no `UnknownContextError`, no handling and
no fallback in the code (the dict lookup `automaton[state]` is bare). -/
theorem c5_unknown_context_crash :
    generate 7 4 2 ['a', 'a', 'b', 'b'] none false = .error .keyError := by
  decide

/-! ## The filter's actual classification -/

theorem nonPrintable_eq :
    nonPrintable = ['\t', '\n', Char.ofNat 13, Char.ofNat 11, Char.ofNat 12] := by decide

theorem char_toNat_ofNat_valid (m : Nat) (h : m < 55296) :
    (Char.ofNat m).toNat = m := by
  rw [Char.ofNat, dif_pos (Or.inl h : Nat.isValidChar m)]
  simp [Char.ofNatAux, Char.toNat, UInt32.toNat, BitVec.toNat_ofNatLt]

theorem pyLower_ne_newline (c : Char) (h : c ≠ '\n') : pyLower c ≠ '\n' := by
  unfold pyLower Char.toLower
  dsimp only
  split
  · rename_i hc
    intro heq
    have hv : (Char.ofNat (c.toNat + 32)).toNat = c.toNat + 32 :=
      char_toNat_ofNat_valid _ (by omega)
    rw [heq] at hv
    have : ('\n').toNat = 10 := by decide
    omega
  · exact h

theorem filterAux_spec (ic : Bool) : ∀ (text : List Char) (fc lc : Option Char),
    (filterAux ic text fc lc).1 = filterSpec ic text (decide (lc = some '\n')) := by
  intro text
  induction text with
  | nil => intro fc lc; rfl
  | cons c rest ih =>
    intro fc lc
    by_cases hnp : c ∈ nonPrintable
    · have hnp2 : ¬c ∉ nonPrintable := not_not_intro hnp
      rw [nonPrintable_eq] at hnp
      simp only [List.mem_cons, List.not_mem_nil, or_false] at hnp
      rcases hnp with rfl | rfl | rfl | rfl | rfl
      · simp only [filterAux, if_neg hnp2]
        rw [if_neg (by intro h; exact absurd h.1 (by decide)), ih]
        simp [filterSpec]
      · by_cases hlc : lc = some '\n'
        · simp only [filterAux, if_neg hnp2]
          rw [if_neg (by intro h; exact h.2 hlc), ih]
          simp [filterSpec, hlc]
        · simp only [filterAux, if_neg hnp2]
          rw [if_pos (show True ∧ lc ≠ some '\n' from ⟨trivial, hlc⟩), ih]
          simp [filterSpec, hlc]
      · simp only [filterAux, if_neg hnp2]
        rw [if_neg (by intro h; exact absurd h.1 (by decide)), ih]
        simp [filterSpec]
      · simp only [filterAux, if_neg hnp2]
        rw [if_neg (by intro h; exact absurd h.1 (by decide)), ih]
        simp [filterSpec]
      · simp only [filterAux, if_neg hnp2]
        rw [if_neg (by intro h; exact absurd h.1 (by decide)), ih]
        simp [filterSpec]
    · have hcn : c ≠ '\n' := by
        intro h
        rw [nonPrintable_eq] at hnp
        exact hnp (by rw [h]; simp)
      have h4 : ¬(c = '\t' ∨ c = Char.ofNat 13 ∨ c = Char.ofNat 11 ∨
          c = Char.ofNat 12) := by
        intro h
        rw [nonPrintable_eq] at hnp
        rcases h with h | h | h | h <;> rw [h] at hnp <;> exact hnp (by simp)
      have hc2 : (if ic then c else pyLower c) ≠ '\n' := by
        cases ic with
        | true => simpa using hcn
        | false => simpa using pyLower_ne_newline c hcn
      simp only [filterAux, if_pos hnp]
      rw [ih]
      simp [filterSpec, h4, hcn, hc2]

/-- C7 counterexample: the NUL control character is *not* printable, yet
the filter passes it through instead of dropping it — the computed
"non-printable" set is really just tab, newline, CR, VT, FF. -/
theorem c7_filter_counterexample :
    filterBody [Char.ofNat 0] false = [Char.ofNat 0] := by decide

/-- C7 amended: the filter drops exactly tab, CR, VT and FF; a newline is
dropped when the most recent newline event is still current (even across
dropped characters) and otherwise emits one space; every other character —
including control and non-ASCII characters — passes through, lowercased
when `ignore_case` is false. -/
theorem c7_filter_classification (text : List Char) (ic : Bool) :
    filterBody text ic = filterSpec ic text false := by
  rw [filterBody, filterAux_spec]
  rfl

/-! ## The sentinel value -/

theorem filterAux_fc_stable (ic : Bool) : ∀ (text : List Char) (v : Char)
    (lc : Option Char), (filterAux ic text (some v) lc).2 = some v := by
  intro text
  induction text with
  | nil => intro v lc; rfl
  | cons c rest ih =>
    intro v lc
    simp only [filterAux]
    split
    · simpa using ih v _
    · split
      · simpa using ih v _
      · exact ih v lc

theorem filterAux_none_start (ic : Bool) : ∀ (text : List Char) (lc : Option Char),
    ((filterAux ic text none lc).2 = none ↔ (filterAux ic text none lc).1 = []) ∧
    ((filterAux ic text none lc).2 = (filterAux ic text none lc).1.head? ∨
      ((filterAux ic text none lc).2 = some '\n' ∧
        (filterAux ic text none lc).1.head? = some ' ')) := by
  intro text
  induction text with
  | nil => intro lc; exact ⟨by simp [filterAux], Or.inl rfl⟩
  | cons c rest ih =>
    intro lc
    simp only [filterAux]
    split
    · have hst := filterAux_fc_stable ic rest (if ic then c else pyLower c)
        (some (if ic then c else pyLower c))
      simp only [if_pos rfl]
      constructor
      · simp [hst]
      · left
        simp [hst]
    · split
      · have hst := filterAux_fc_stable ic rest '\n' (some '\n')
        simp only [if_pos rfl]
        constructor
        · simp [hst]
        · right
          simp [hst]
      · exact ih lc

/-- C8 counterexample: on the text `"\na"` the filter first yields a space
(for the leading newline) but records the newline as `first_char`, so the
final sentinel differs from the first yielded character. -/
theorem c8_sentinel_counterexample :
    firstChar ['\n', 'a'] false ≠ (filterBody ['\n', 'a'] false).head? := by decide

/-- C8 amended: the extra final value is `first_char` — `None` exactly when
nothing was yielded, and otherwise the first *accepted* character: that is
the first yielded character, except when the first yield came from a
newline replaced by a space, in which case the sentinel is the newline
character itself. -/
theorem c8_sentinel_characterized (text : List Char) (ic : Bool) :
    (firstChar text ic = none ↔ filterBody text ic = []) ∧
    (firstChar text ic = (filterBody text ic).head? ∨
      (firstChar text ic = some '\n' ∧ (filterBody text ic).head? = some ' ')) :=
  filterAux_none_start ic text none

/-! ## Parameter handling and short inputs -/

/-- C9 counterexample: `order = 0` builds an automaton without any error
(the priming loop just runs zero times), and a zero requested length
returns the empty string without any error — there is no
`InvalidParameterError` anywhere in the code. -/
theorem c9_no_validation_counterexample :
    create_automaton 0 ['a', 'b'] false =
      .ok (normalize_automaton
        [([], [('a', 1)]), (['a'], [('b', 1)]), (['b'], [('a', 1)])]) ∧
    generate 0 0 1 ['a', 'b'] (some 0) false = .ok [] := ⟨rfl, by decide⟩

/-- C9 amended: no parameter is validated. `order ≤ 0` is accepted and
behaves exactly like `order = 0` (`range(order)` is empty, so the initial
context is empty), and a zero or negative requested length makes `generate`
return the empty string (never an error, as long as the automaton built and
is nonempty). -/
theorem c9_no_invalid_parameter_error :
    (∀ (ord : Int) (text : List Char) (ic : Bool), ord ≤ 0 →
      create_automaton ord text ic = create_automaton 0 text ic) ∧
    (∀ (g : Nat) (L ord : Int) (text : List Char) (seed : Option Int) (ic : Bool)
      (e : List Char × (List Char × List ℚ)) (rest : Automaton), L ≤ 0 →
      create_automaton ord text ic = .ok (e :: rest) →
      generate g L ord text seed ic = .ok []) := by
  constructor
  · intro ord text ic h
    unfold create_automaton
    rw [Int.toNat_of_nonpos h]
    rfl
  · intro g L ord text seed ic e rest hL hok
    simp only [generate, hok]
    rw [Int.toNat_of_nonpos hL]
    rfl

/-- Witness for C9 at `order = -2` on `"ab"` and at `length = 0` with
`order = 1`. -/
theorem c9_no_invalid_parameter_error_witness :
    create_automaton (-2) ['a', 'b'] false = create_automaton 0 ['a', 'b'] false ∧
    generate 0 0 1 ['a', 'b'] (some 0) false = .ok [] :=
  ⟨c9_no_invalid_parameter_error.1 (-2) ['a', 'b'] false (by norm_num),
   c9_no_invalid_parameter_error.2 0 0 1 ['a', 'b'] (some 0) false
     (['a'], (['b'], [((1 : ℕ) : ℚ) / ((1 : ℕ) : ℚ)]))
     [(['b'], (['a'], [((1 : ℕ) : ℚ) / ((1 : ℕ) : ℚ)]))]
     (le_refl 0) rfl⟩

theorem primeContext_take (k : Nat) : ∀ (xs : List Char), k ≤ xs.length →
    primeContext k (xs.map some) = .ok (xs.take k, (xs.drop k).map some) := by
  induction k with
  | zero => intro xs h; simp [primeContext]
  | succ k ih =>
    intro xs h
    match xs with
    | [] => simp at h
    | x :: xs2 =>
      simp only [List.map_cons, primeContext]
      rw [ih xs2 (by simpa using h)]
      simp

theorem primeContext_exact (xs : List Char) :
    primeContext xs.length (xs.map some) = .ok (xs, []) := by
  have h := primeContext_take xs.length xs (le_refl _)
  simpa using h

theorem primeContext_short (xs : List Char) : ∀ (k : Nat), xs.length < k →
    primeContext k (xs.map some) = .error .stopIteration := by
  induction xs with
  | nil =>
    intro k h
    match k, h with
    | k + 1, _ => rfl
  | cons x xs2 ih =>
    intro k h
    match k with
    | k + 1 =>
      simp only [List.map_cons, primeContext]
      rw [ih k (by simpa using h)]

/-- C10 counterexample: the training text `"a"` filters to a single
character, fewer than `order = 2`, yet construction does *not* fail — the
sentinel tops up the priming read and the automaton comes out empty. -/
theorem c10_insufficient_data_counterexample :
    create_automaton 2 ['a'] false = .ok [] := rfl

/-- C10 amended: with `1 ≤ order` and fewer filtered characters than
`order`, construction fails with `TypeError` when the filtered sequence is
empty (the `None` sentinel is concatenated while priming), succeeds with an
*empty* automaton when it has exactly `order - 1` characters (the sentinel
completes the priming read), and fails with `StopIteration` when it is
nonempty but shorter than `order - 1`. No `InsufficientDataError` exists. -/
theorem c10_insufficient_data (order : Int) (text : List Char) (ic : Bool)
    (h1 : 1 ≤ order) (_h2 : ((filterBody text ic).length : Int) < order) :
    (filterBody text ic = [] → create_automaton order text ic = .error .typeError) ∧
    (filterBody text ic ≠ [] → ((filterBody text ic).length : Int) = order - 1 →
      create_automaton order text ic = .ok []) ∧
    (filterBody text ic ≠ [] → ((filterBody text ic).length : Int) < order - 1 →
      create_automaton order text ic = .error .stopIteration) := by
  have hO : ((order.toNat : Int)) = order := Int.toNat_of_nonneg (by omega)
  refine ⟨?_, ?_, ?_⟩
  · intro hb
    have hfc : firstChar text ic = none := ((filterAux_none_start ic text none).1).mpr hb
    obtain ⟨k, hk⟩ : ∃ k, order.toNat = k + 1 := ⟨order.toNat - 1, by omega⟩
    unfold create_automaton filterStream
    rw [hb, hfc, hk]
    rfl
  · intro hb hlen
    obtain ⟨v, hv⟩ : ∃ v, firstChar text ic = some v := by
      match h : firstChar text ic with
      | none => exact absurd (((filterAux_none_start ic text none).1).mp h) hb
      | some v => exact ⟨v, rfl⟩
    have hx : order.toNat = ((filterBody text ic) ++ [v]).length := by
      simp only [List.length_append, List.length_cons, List.length_nil]
      omega
    unfold create_automaton filterStream
    rw [hv, show (filterBody text ic).map some ++ [some v] =
      ((filterBody text ic) ++ [v]).map some by simp, hx, primeContext_exact]
    rfl
  · intro hb hlen
    obtain ⟨v, hv⟩ : ∃ v, firstChar text ic = some v := by
      match h : firstChar text ic with
      | none => exact absurd (((filterAux_none_start ic text none).1).mp h) hb
      | some v => exact ⟨v, rfl⟩
    have hx : ((filterBody text ic) ++ [v]).length < order.toNat := by
      simp only [List.length_append, List.length_cons, List.length_nil]
      omega
    unfold create_automaton filterStream
    rw [hv, show (filterBody text ic).map some ++ [some v] =
      ((filterBody text ic) ++ [v]).map some by simp,
      primeContext_short _ _ hx]

/-- Witness for C10 at `order = 2`, text `"x"`: exactly `order - 1` filtered
characters, so construction succeeds with the empty automaton. -/
theorem c10_insufficient_data_witness :
    create_automaton 2 ['x'] false = .ok [] :=
  (c10_insufficient_data 2 ['x'] false (by norm_num) (by decide)).2.1
    (by decide) (by decide)

/-! ## Order-1 closure -/

theorem buildLoop_map_some : ∀ (xs curr : List Char) (t : CountTable),
    buildLoop (xs.map some) curr t = .ok (foldIncr xs curr t) := by
  intro xs
  induction xs with
  | nil => intro curr t; rfl
  | cons x xs ih => intro curr t; exact ih _ _

theorem incr_isKey_self (t : CountTable) (k : List Char) (c : Char) :
    isKeyT (incr t k c) k := by
  induction t with
  | nil => exact ⟨(k, [(c, 1)]), by simp [incr], rfl⟩
  | cons hd tl ih =>
    obtain ⟨k2, l⟩ := hd
    by_cases h : k2 = k
    · exact ⟨(k2, bump l c), by simp [incr, h], h⟩
    · obtain ⟨e, he, hp⟩ := ih
      exact ⟨e, by simp [incr, h, he], hp⟩

theorem incr_isKey_mono (t : CountTable) (k : List Char) (c : Char)
    (x : List Char) (h : isKeyT t x) : isKeyT (incr t k c) x := by
  induction t with
  | nil => exact absurd h (by simp [isKeyT])
  | cons hd tl ih =>
    obtain ⟨k2, l⟩ := hd
    obtain ⟨e, he, hp⟩ := h
    by_cases hk : k2 = k
    · rcases List.mem_cons.1 he with rfl | he2
      · exact ⟨(k2, bump l c), by simp [incr, hk], hp⟩
      · exact ⟨e, by simp [incr, hk, he2], hp⟩
    · rcases List.mem_cons.1 he with rfl | he2
      · exact ⟨(k2, l), by simp [incr, hk], hp⟩
      · obtain ⟨e2, he3, hp2⟩ := ih ⟨e, he2, hp⟩
        exact ⟨e2, by simp [incr, hk, he3], hp2⟩

theorem incr_isKey_inv (t : CountTable) (k : List Char) (c : Char)
    (x : List Char) (h : isKeyT (incr t k c) x) : isKeyT t x ∨ x = k := by
  induction t with
  | nil =>
    obtain ⟨e, he, hp⟩ := h
    simp only [incr, List.mem_singleton] at he
    subst he
    exact Or.inr hp.symm
  | cons hd tl ih =>
    obtain ⟨k2, l⟩ := hd
    obtain ⟨e, he, hp⟩ := h
    by_cases hk : k2 = k
    · simp only [incr, if_pos hk] at he
      rcases List.mem_cons.1 he with rfl | he2
      · exact Or.inl ⟨(k2, l), by simp, hp⟩
      · exact Or.inl ⟨e, by simp [he2], hp⟩
    · simp only [incr, if_neg hk] at he
      rcases List.mem_cons.1 he with rfl | he2
      · exact Or.inl ⟨(k2, l), by simp, hp⟩
      · rcases ih ⟨e, he2, hp⟩ with h2 | h2
        · obtain ⟨e2, he3, hp2⟩ := h2
          exact Or.inl ⟨e2, by simp [he3], hp2⟩
        · exact Or.inr h2

theorem bump_subset (l : List (Char × Nat)) (c : Char) :
    ∀ p ∈ bump l c, p ∈ l ∨ p.1 = c := by
  induction l with
  | nil => intro p hp; simp only [bump, List.mem_singleton] at hp; subst hp; simp
  | cons hd tl ih =>
    obtain ⟨d, n⟩ := hd
    intro p hp
    simp only [bump] at hp
    split at hp
    · rcases List.mem_cons.1 hp with rfl | hp2
      · rename_i hd2
        simp [hd2]
      · exact Or.inl (List.mem_cons_of_mem _ hp2)
    · rcases List.mem_cons.1 hp with rfl | hp2
      · exact Or.inl (by simp)
      · rcases ih p hp2 with h | h
        · exact Or.inl (List.mem_cons_of_mem _ h)
        · exact Or.inr h

theorem incr_isSucc_inv (t : CountTable) (k : List Char) (c : Char)
    (s : Char) (h : isSuccT (incr t k c) s) : isSuccT t s ∨ s = c := by
  induction t with
  | nil =>
    obtain ⟨e, he, p, hp, hps⟩ := h
    simp only [incr, List.mem_singleton] at he
    subst he
    simp only [List.mem_singleton] at hp
    subst hp
    exact Or.inr hps.symm
  | cons hd tl ih =>
    obtain ⟨k2, l⟩ := hd
    obtain ⟨e, he, p, hp, hps⟩ := h
    by_cases hk : k2 = k
    · simp only [incr, if_pos hk] at he
      rcases List.mem_cons.1 he with rfl | he2
      · rcases bump_subset l c p hp with h2 | h2
        · exact Or.inl ⟨(k2, l), by simp, p, h2, hps⟩
        · exact Or.inr (by rw [← hps, h2])
      · exact Or.inl ⟨e, by simp [he2], p, hp, hps⟩
    · simp only [incr, if_neg hk] at he
      rcases List.mem_cons.1 he with rfl | he2
      · exact Or.inl ⟨(k2, l), by simp, p, hp, hps⟩
      · rcases ih ⟨e, he2, p, hp, hps⟩ with h2 | h2
        · obtain ⟨e2, he3, p2, hp2, hps2⟩ := h2
          exact Or.inl ⟨e2, by simp [he3], p2, hp2, hps2⟩
        · exact Or.inr h2

theorem foldIncr_key_mono : ∀ (xs curr : List Char) (t : CountTable)
    (k : List Char), isKeyT t k → isKeyT (foldIncr xs curr t) k := by
  intro xs
  induction xs with
  | nil => intro curr t k h; exact h
  | cons x xs ih =>
    intro curr t k h
    exact ih _ _ _ (incr_isKey_mono t curr x k h)

theorem foldIncr_curr_key (xs : List Char) (y : Char) (t : CountTable)
    (h : xs ≠ []) : isKeyT (foldIncr xs [y] t) [y] := by
  match xs with
  | x :: xs2 =>
    show isKeyT (foldIncr xs2 [x] (incr t [y] x)) [y]
    exact foldIncr_key_mono xs2 [x] _ [y] (incr_isKey_self t [y] x)

theorem foldIncr_succ_inv : ∀ (xs : List Char) (y : Char) (t : CountTable)
    (s : Char), isSuccT (foldIncr xs [y] t) s → isSuccT t s ∨ s ∈ xs := by
  intro xs
  induction xs with
  | nil => intro y t s h; exact Or.inl h
  | cons x xs ih =>
    intro y t s h
    rcases ih x (incr t [y] x) s h with h2 | h2
    · rcases incr_isSucc_inv t [y] x s h2 with h3 | h3
      · exact Or.inl h3
      · exact Or.inr (by simp [h3])
    · exact Or.inr (List.mem_cons_of_mem _ h2)

theorem foldIncr_dropLast_key : ∀ (xs : List Char) (y : Char) (t : CountTable)
    (x : Char), x ∈ xs.dropLast → isKeyT (foldIncr xs [y] t) [x] := by
  intro xs
  induction xs with
  | nil => intro y t x h; simp at h
  | cons z xs2 ih =>
    intro y t x h
    match xs2, h with
    | w :: xs3, h =>
      rw [List.dropLast_cons₂] at h
      rcases List.mem_cons.1 h with rfl | h2
      · exact foldIncr_curr_key (w :: xs3) x (incr t [y] x) (by simp)
      · exact ih z (incr t [y] z) x h2

theorem foldIncr_key_len : ∀ (xs : List Char) (y : Char) (t : CountTable)
    (k : List Char), isKeyT (foldIncr xs [y] t) k → isKeyT t k ∨ k.length = 1 := by
  intro xs
  induction xs with
  | nil => intro y t k h; exact Or.inl h
  | cons x xs ih =>
    intro y t k h
    rcases ih x (incr t [y] x) k h with h2 | h2
    · rcases incr_isKey_inv t [y] x k h2 with h3 | h3
      · exact Or.inl h3
      · exact Or.inr (by simp [h3])
    · exact Or.inr h2

theorem foldIncr_closed (bt : List Char) (b0 : Char) (s : Char)
    (hs : isSuccT (foldIncr (bt ++ [b0]) [b0] []) s) :
    isKeyT (foldIncr (bt ++ [b0]) [b0] []) [s] := by
  rcases foldIncr_succ_inv (bt ++ [b0]) b0 [] s hs with h | h
  · exact absurd h (by simp [isSuccT])
  · rcases List.mem_append.1 h with h2 | h2
    · have h3 : s ∈ (bt ++ [b0]).dropLast := by
        rw [List.dropLast_concat]
        exact h2
      exact foldIncr_dropLast_key (bt ++ [b0]) b0 [] s h3
    · simp only [List.mem_singleton] at h2
      subst h2
      exact foldIncr_curr_key (bt ++ [s]) s [] (by simp)

theorem normalize_key_of_isKeyT (t : CountTable) (k : List Char)
    (h : isKeyT t k) : ∃ e ∈ normalize_automaton t, e.1 = k := by
  obtain ⟨e0, he0, hp⟩ := h
  exact ⟨_, List.mem_map_of_mem _ he0, hp⟩

theorem isKeyT_of_normalize_mem (t : CountTable)
    (e : List Char × (List Char × List ℚ)) (he : e ∈ normalize_automaton t) :
    isKeyT t e.1 := by
  rw [normalize_automaton, List.mem_map] at he
  obtain ⟨e0, he0, rfl⟩ := he
  exact ⟨e0, he0, rfl⟩

theorem isSuccT_of_normalize_mem (t : CountTable)
    (e : List Char × (List Char × List ℚ)) (he : e ∈ normalize_automaton t)
    (c : Char) (hc : c ∈ e.2.1) : isSuccT t c := by
  rw [normalize_automaton, List.mem_map] at he
  obtain ⟨e0, he0, rfl⟩ := he
  simp only [List.mem_map] at hc
  obtain ⟨p, hp, rfl⟩ := hc
  exact ⟨e0, he0, p, hp, rfl⟩

theorem dictLookup_isSome_of_key (a : Automaton) (k : List Char)
    (h : ∃ e ∈ a, e.1 = k) : (dictLookup a k).isSome := by
  induction a with
  | nil => obtain ⟨e, he, _⟩ := h; simp at he
  | cons hd tl ih =>
    simp only [dictLookup]
    split
    · rfl
    · rename_i hne
      obtain ⟨e, he, hp⟩ := h
      rcases List.mem_cons.1 he with rfl | he2
      · exact absurd hp hne
      · exact ih ⟨e, he2, hp⟩

theorem dictLookup_mem (a : Automaton) (k : List Char)
    (v : List Char × List ℚ) (h : dictLookup a k = some v) : (k, v) ∈ a := by
  induction a with
  | nil => simp [dictLookup] at h
  | cons hd tl ih =>
    simp only [dictLookup] at h
    split at h
    · rename_i heq
      cases h
      rw [← heq]
      simp
    · exact List.mem_cons_of_mem _ (ih h)

theorem bisectRight_le (x : ℚ) : ∀ (l : List ℚ) (hi : Nat),
    bisectRight l x hi ≤ hi := by
  intro l
  induction l with
  | nil => intro hi; cases hi <;> simp [bisectRight]
  | cons y ys ih =>
    intro hi
    cases hi with
    | zero => simp [bisectRight]
    | succ k =>
      simp only [bisectRight]
      split
      · have := ih k; omega
      · omega

theorem chooseChar_mem (cs : List Char) (ps : List ℚ) (r : ℚ) (h : cs ≠ []) :
    chooseChar cs ps r ∈ cs := by
  unfold chooseChar
  have h1 := bisectRight_le (r * (cumWeights ps).getLastD 0) (cumWeights ps)
    (cs.length - 1)
  have h2 : 0 < cs.length := List.length_pos.2 h
  have h3 : bisectRight (cumWeights ps) (r * (cumWeights ps).getLastD 0)
      (cs.length - 1) < cs.length := by omega
  rw [List.getD_eq_getElem _ _ h3]
  exact List.getElem_mem h3

theorem genLoop_total (a : Automaton)
    (hne : ∀ e ∈ a, e.2.1 ≠ [])
    (hclosed : ∀ e ∈ a, ∀ c ∈ e.2.1, (dictLookup a [c]).isSome) :
    ∀ (n g : Nat) (st : List Char), (dictLookup a st).isSome → st.length = 1 →
      ∃ s, genLoop a n g st = .ok s ∧ s.length = n := by
  intro n
  induction n with
  | zero => intro g st _ _; exact ⟨[], rfl, rfl⟩
  | succ n ih =>
    intro g st hst hstlen
    obtain ⟨v, hv⟩ := Option.isSome_iff_exists.1 hst
    obtain ⟨cs, ps⟩ := v
    have hmem := dictLookup_mem a st (cs, ps) hv
    have hcs : cs ≠ [] := hne _ hmem
    have hcmem : chooseChar cs ps (randFrac g) ∈ cs :=
      chooseChar_mem cs ps _ hcs
    have hnext : st.drop 1 ++ [chooseChar cs ps (randFrac g)] =
        [chooseChar cs ps (randFrac g)] := by
      match st, hstlen with
      | [x], _ => rfl
    have hlook : (dictLookup a [chooseChar cs ps (randFrac g)]).isSome :=
      hclosed _ hmem _ hcmem
    obtain ⟨s, hs, hslen⟩ := ih (lcg g) [chooseChar cs ps (randFrac g)] hlook rfl
    refine ⟨chooseChar cs ps (randFrac g) :: s, ?_, by simp [hslen]⟩
    simp only [genLoop, hv]
    rw [hnext, hs]

theorem create_order1 (text : List Char) (ic : Bool) (b0 : Char)
    (bt : List Char) (hb : filterBody text ic = b0 :: bt)
    (hf : firstChar text ic = some b0) :
    create_automaton 1 text ic =
      .ok (normalize_automaton (foldIncr (bt ++ [b0]) [b0] [])) := by
  unfold create_automaton filterStream
  rw [hb, hf]
  rw [show (b0 :: bt).map some ++ [some b0] =
    some b0 :: (bt ++ [b0]).map some by simp]
  simp only [show primeContext (Int.toNat 1) (some b0 :: (bt ++ [b0]).map some) =
    .ok ([b0], (bt ++ [b0]).map some) from rfl, buildLoop_map_some]

/-- C6 amended: for `order = 1`, *provided* the filter's sentinel equals the
first yielded character (true unless the text's first kept character is a
newline, which is yielded as a space but recorded as `'\n'`), every
successor character of every context is itself a context key, and the
generation loop succeeds at every length and seed. Without that proviso
the claim fails (see the counterexample). -/
theorem c6_order1_closure (text : List Char) (ic : Bool) (a : Automaton)
    (h1 : firstChar text ic = (filterBody text ic).head?)
    (h2 : create_automaton 1 text ic = .ok a) :
    (∀ e ∈ a, ∀ c ∈ e.2.1, (dictLookup a [c]).isSome) ∧
    (∀ (g : Nat) (L : Int) (seed : Option Int),
      ∃ s, generate g L 1 text seed ic = .ok s ∧ s.length = L.toNat) := by
  match hb : filterBody text ic with
  | [] =>
    rw [hb] at h1
    have hfc : firstChar text ic = none := by simpa using h1
    unfold create_automaton filterStream at h2
    rw [hb, hfc] at h2
    simp only [List.map_nil, List.nil_append] at h2
    rw [show primeContext (Int.toNat 1) [(none : Option Char)] =
      .error .typeError from rfl] at h2
    exact absurd h2 (by simp)
  | b0 :: bt =>
    rw [hb] at h1
    have hf : firstChar text ic = some b0 := by simpa using h1
    have hce := create_order1 text ic b0 bt hb hf
    rw [h2] at hce
    have ha : a = normalize_automaton (foldIncr (bt ++ [b0]) [b0] []) := by
      injection hce
    subst ha
    obtain ⟨t0, hwf0, hnorm⟩ := create_automaton_wf 1 text ic _ h2
    have hne : ∀ e ∈ normalize_automaton (foldIncr (bt ++ [b0]) [b0] []),
        e.2.1 ≠ [] := by
      rw [hnorm]
      intro e he
      rw [normalize_automaton, List.mem_map] at he
      obtain ⟨e0, he0, rfl⟩ := he
      have := (hwf0 e0 he0).1
      simpa using this
    have hclosed : ∀ e ∈ normalize_automaton (foldIncr (bt ++ [b0]) [b0] []),
        ∀ c ∈ e.2.1,
        (dictLookup (normalize_automaton (foldIncr (bt ++ [b0]) [b0] [])) [c]).isSome := by
      intro e he c hc
      have hsucc := isSuccT_of_normalize_mem _ e he c hc
      have hkey := foldIncr_closed bt b0 c hsucc
      exact dictLookup_isSome_of_key _ [c] (normalize_key_of_isKeyT _ [c] hkey)
    have hlen : ∀ e ∈ normalize_automaton (foldIncr (bt ++ [b0]) [b0] []),
        e.1.length = 1 := by
      intro e he
      have hkey := isKeyT_of_normalize_mem _ e he
      rcases foldIncr_key_len (bt ++ [b0]) b0 [] e.1 hkey with h | h
      · exact absurd h (by simp [isKeyT])
      · exact h
    refine ⟨hclosed, ?_⟩
    intro g L seed
    have hanil : normalize_automaton (foldIncr (bt ++ [b0]) [b0] []) ≠ [] := by
      have hkey := foldIncr_curr_key (bt ++ [b0]) b0 [] (by simp)
      obtain ⟨e, he, _⟩ := normalize_key_of_isKeyT _ [b0] hkey
      intro hcon
      rw [hcon] at he
      simp at he
    match hA : normalize_automaton (foldIncr (bt ++ [b0]) [b0] []) with
    | [] => exact absurd hA hanil
    | e0 :: arest =>
      have he0 : e0 ∈ normalize_automaton (foldIncr (bt ++ [b0]) [b0] []) := by
        rw [hA]; simp
      have hstart : (dictLookup (normalize_automaton
          (foldIncr (bt ++ [b0]) [b0] [])) e0.1).isSome :=
        dictLookup_isSome_of_key _ e0.1 ⟨e0, he0, rfl⟩
      obtain ⟨s, hs, hslen⟩ := genLoop_total _ hne hclosed L.toNat
        (match seed with | some s => seedState s | none => g) e0.1 hstart
        (hlen e0 he0)
      refine ⟨s, ?_, hslen⟩
      simp only [generate, h2, hA]
      rw [← hA]
      exact hs

/-- C6 counterexample: on the training text `"\nab"` the leading newline is
yielded as a space but recorded as the sentinel, so with `order = 1` the
automaton maps context `"b"` to successor `'\n'` while `"\n"` is not a
context — and a length-4 generation crashes with `KeyError` even though
`order = 1`. -/
theorem c6_order1_closure_counterexample :
    generate 0 4 1 ['\n', 'a', 'b'] (some 0) false = .error .keyError := by
  decide

/-- Witness for C6 on the text `"abab"`: the successor `'b'` of context
`"a"` is itself a context, and a 3-character generation succeeds. -/
theorem c6_order1_closure_witness :
    (dictLookup (normalize_automaton [(['a'], [('b', 2)]), (['b'], [('a', 2)])])
      ['b']).isSome ∧
    ∃ s, generate 0 3 1 ['a', 'b', 'a', 'b'] none false = .ok s ∧
      s.length = (3 : Int).toNat := by
  have h := c6_order1_closure ['a', 'b', 'a', 'b'] false
    (normalize_automaton [(['a'], [('b', 2)]), (['b'], [('a', 2)])])
    (by decide) rfl
  refine ⟨?_, h.2 0 3 none⟩
  exact h.1 (['a'], (['b'], [((2 : ℕ) : ℚ) / ((2 : ℕ) : ℚ)]))
    (List.mem_cons_self _ _) 'b' (List.mem_singleton_self _)

example : nonPrintable = ['\t', '\n', Char.ofNat 13, Char.ofNat 11, Char.ofNat 12] := by decide

example : filterBody ['a', 'B', '\n', '\n', 'c'] false = ['a', 'b', ' ', 'c'] := by decide

example : firstChar ['\n', 'a'] false = some '\n' := by decide

example : create_automaton 1 ['a', 'b', 'a', 'b'] false =
    .ok (normalize_automaton [(['a'], [('b', 2)]), (['b'], [('a', 2)])]) := rfl

example : generate 0 4 1 ['a', 'b', 'a', 'b'] (some 0) false =
    .ok ['b', 'a', 'b', 'a'] := by decide

example : generate 0 4 2 ['a', 'a', 'b', 'b'] (some 0) false =
    .error .keyError := by decide
